import Mathlib

/-!
# Verification of the HonestJS docs-aggregator build script

This development gives a shallow embedding of `scripts/build-llm-docs.ts`,
the only procedural component of the repository: a batch tool that scans a
tree of markdown documents, strips YAML front matter, derives link labels,
and concatenates the documents into three output artifacts
(`llms.txt`, `llms-full.txt`, `llms-small.txt`).

Modelling conventions:
* JavaScript strings are modelled as Lean `String` / `List Char`.
  The script only manipulates ASCII text, so `String.prototype.toUpperCase`
  on a single character is modelled by `Char.toUpper` (they agree on ASCII).
* The regular expression `/^\n*---(\n.+)*?\n---\n/` (no `m`/`s`/`g` flags)
  is embedded as an explicit, deterministic matcher `fmMatch`.  The regex is
  anchored, `\n*` and `.+` are runs over disjoint character classes, and the
  lazy group `(\n.+)*?` tries the closing delimiter `\n---\n` before each
  further iteration, so backtracking never produces a different match; the
  matcher below implements exactly that strategy.  In JavaScript `.` matches
  every UTF-16 unit except the line terminators `\n`, `\r`, `\u2028`,
  `\u2029`; the predicate `isDotChar` reflects this.
* `Array.prototype.split/join/pop/slice` and `String.prototype.replace`
  (with a non-global pattern, i.e. first occurrence only) are modelled by
  the list functions `splitChar`, `joinWith`, `lastD`, `dropLast`,
  `rfhL` below, matching the corner cases of the JS originals
  (`''.split(sep) = ['']`, `[].join = ''`, `pop() || ''`, ...).
* `fs.glob('**/*.md', { cwd, exclude })` (Node ≥ 22) is modelled as a
  traversal listing: the tree is a list of relative paths in traversal
  order; the glob yields the paths ending in `.md`.  The `exclude` callback
  receives the cwd-relative path of every traversed entry (directories
  included) and a directory for which it returns `true` is pruned together
  with everything below it; hence a file is excluded exactly when some
  nonempty prefix of its segment list, joined with `/`, is excluded
  (`nodeExcluded`).
* The filesystem is a list of `(relative path, content)` pairs; reading a
  missing path is the `FilesystemError` of the spec, modelled with `Except`.
* Node exit semantics: an unhandled promise rejection terminates the
  process with a nonzero code, a handled one does not; the script's
  top level `generateLLMDocs().catch(console.error)` attaches a handler,
  which `nodeExitCode` reflects.
-/

/-- Characters matched by `.` in a JavaScript regex without the `s` flag:
everything except the four line terminators. -/
def isDotChar (c : Char) : Bool :=
  c != '\n' && c != '\r' && c != '\u2028' && c != '\u2029'

/-- The closing delimiter `"\n---\n"` of the front-matter pattern. -/
def closeDelim : List Char := ['\n', '-', '-', '-', '\n']

/-- One step of the lazy group `(\n.+)*?` followed by `\n---\n` in
`frontmatterRegex`: at each position the closing delimiter is tried first
(lazy quantifier); otherwise one `\n` plus a maximal nonempty run of
`.`-characters is consumed.  `fuel` only forces structural recursion; the
wrapper always supplies more fuel than the list length. -/
def fmLoopF : Nat → List Char → Option (List Char)
  | 0, _ => none
  | fuel + 1, cs =>
    if closeDelim.isPrefixOf cs then some (cs.drop 5)
    else
      match cs with
      | c0 :: c1 :: rest =>
        if c0 = '\n' then
          if isDotChar c1 then fmLoopF fuel ((c1 :: rest).dropWhile isDotChar)
          else none
        else none
      | _ => none

/-- The anchored match of `frontmatterRegex = /^\n*---(\n.+)*?\n---\n/`:
returns `some rest` where `rest` is the input with the matched prefix
removed, or `none` when the regex does not match. -/
def fmMatch (cs : List Char) : Option (List Char) :=
  match cs.dropWhile (fun c => c = '\n') with
  | '-' :: '-' :: '-' :: rest => fmLoopF (rest.length + 1) rest
  | _ => none

/-- `content.replace(frontmatterRegex, '')` from `generateContent`
(line 95 of the script): a non-global anchored pattern, so at most the
leading match is removed. -/
def stripFrontMatter (s : String) : String :=
  match fmMatch s.data with
  | some rest => String.mk rest
  | none => s

/-- JavaScript `str.split(sep)` for a single-character separator, at the
character-list level: always returns a nonempty list of separator-free
pieces; `''.split(sep) = ['']`. -/
def splitChar (sep : Char) : List Char → List (List Char)
  | [] => [[]]
  | c :: rest =>
    match splitChar sep rest with
    | h :: t => if c = sep then [] :: h :: t else (c :: h) :: t
    | [] => [[c]]

/-- JavaScript `parts.join(sep)` for a single-character separator. -/
def joinWith (sep : Char) : List (List Char) → List Char
  | [] => []
  | [s] => s
  | s :: rest => s ++ sep :: joinWith sep rest

/-- `sliceExt` from the script:
`file.split('.').slice(0, -1).join('.')`. -/
def sliceExt (s : String) : String :=
  String.mk (joinWith '.' ((splitChar '.' s.data).dropLast))

/-- JavaScript `parts.pop() || ''`: the last element of the array, or the
empty string when there is none (split results are never empty, and a final
empty piece is also mapped to `''` by the `||`). -/
def lastD : List (List Char) → List Char
  | [] => []
  | [x] => x
  | _ :: t => lastD t

/-- `extractLabel` from the script:
`sliceExt(file.split('/').pop() || '')`. -/
def extractLabel (s : String) : String :=
  sliceExt (String.mk (lastD (splitChar '/' s.data)))

/-- `s.charAt(0).toUpperCase() + s.slice(1)`, the per-segment step of
`capitalizeDelimiter`. -/
def capFirst : List Char → List Char
  | [] => []
  | c :: rest => c.toUpper :: rest

/-- `capitalizeDelimiter` from the script:
`str.split('-').map(s => s.charAt(0).toUpperCase() + s.slice(1)).join('-')`. -/
def capitalizeDelimiter (s : String) : String :=
  String.mk (joinWith '-' (((splitChar '-' s.data)).map capFirst))

/-- `label.replace(hyphenRegex, ' ')` at the character-list level, where
`hyphenRegex` is the script's one-hyphen pattern on line 33: the pattern is
non-global, so only the first hyphen is replaced. -/
def rfhL : List Char → List Char
  | [] => []
  | c :: rest => if c = '-' then ' ' :: rest else c :: rfhL rest

/-- `label.replace(hyphenRegex, ' ')` on strings. -/
def replaceFirstHyphen (s : String) : String :=
  String.mk (rfhL s.data)

/-- The fixed exclusion list `tinyExclude` of the script (line 73). -/
def tinyExclude : List String := ["concepts", "helpers", "middleware"]

/-- Relative-path join, as Node's traversal builds entry paths
(separator `/`). -/
def joinSegs (l : List (List Char)) : List Char := joinWith '/' l

/-- Whether Node's glob with
`exclude: (filename) => tinyExclude.includes(filename)` skips the file at
relative path `p`: the callback is applied to the cwd-relative path of every
traversed entry, and pruning a directory removes everything below it, so `p`
is skipped exactly when one of the joined nonempty prefixes of its segment
list is a member of `tinyExclude`. -/
def nodeExcluded (p : String) : Bool :=
  (List.range (splitChar '/' p.data).length).any
    (fun k => tinyExclude.contains (String.mk (joinSegs ((splitChar '/' p.data).take (k + 1)))))

/-- Whether a relative path matches the glob pattern `**/*.md`. -/
def isMd (p : String) : Bool := (".md".data).isSuffixOf p.data

/-- The listing produced by `glob('**/*.md', { cwd: docsDir })` over a tree
whose traversal order lists the relative paths `tree`. -/
def discoverFull (tree : List String) : List String := tree.filter isMd

/-- The listing produced by the third glob call (line 74), with the
`tinyExclude` callback. -/
def discoverTiny (tree : List String) : List String :=
  tree.filter (fun p => isMd p && !nodeExcluded p)

/-- The header string passed for `llms-full.txt` (line 65). -/
def fullHeader : String :=
  "<SYSTEM>This is the full developer documentation for HonestJS.</SYSTEM>\n\n"

/-- The header string passed for `llms-small.txt` (line 82). -/
def tinyHeader : String :=
  "<SYSTEM>This is the tiny developer documentation for HonestJS.</SYSTEM>\n\n"

/-- The line appended right after the header in `generateContent`
(line 90). -/
def startLine : String := "# Start of HonestJS documentation\n"

/-- `fs.readFileSync(path.resolve(docsDir, file), 'utf-8')` over a modelled
docs directory: a list of `(relative path, content)` pairs; a missing path
throws (`Except.error`). -/
def readFile (docs : List (String × String)) (p : String) : Except String String :=
  match docs.find? (fun e => e.1 = p) with
  | some e => Except.ok e.2
  | none => Except.error ("ENOENT: " ++ p)

/-- The `for await` accumulation loop of `generateContent` (lines 92-96):
reads each file in order, appending its front-matter-stripped content plus
two newlines to the accumulator; a failed read throws, aborting the loop. -/
def gcGo (docs : List (String × String)) : List String → String → Except String String
  | [], acc => Except.ok acc
  | f :: fs, acc =>
    match readFile docs f with
    | Except.error e => Except.error e
    | Except.ok c => gcGo docs fs (acc ++ stripFrontMatter c ++ "\n\n")

/-- `generateContent(files, docsDir, header)` (lines 89-99): starts from
`header + '# Start of HonestJS documentation\n'` and appends, for each file
in order, its front-matter-stripped content plus two newlines; the function
only builds the string, it does not write to disk (the caller does). -/
def generateContent (files : List String) (docs : List (String × String))
    (header : String) : Except String String :=
  gcGo docs files (header ++ startLine)

/-- Whether reading `p` from the modelled docs directory succeeds. -/
def readOk (docs : List (String × String)) (p : String) : Bool :=
  match readFile docs p with
  | Except.ok _ => true
  | Except.error _ => false

/-- The per-document index line pushed into `optionals` (lines 32-36). -/
def optionalLine (file : String) : String :=
  "- [" ++ replaceFirstHyphen (capitalizeDelimiter (extractLabel file)) ++
    "](https://honestjs.dev/docs/" ++ sliceExt file ++ ")"

/-- The `optionals` array of the script: one line per discovered file, in
discovery order. -/
def optionals (files : List String) : List String := files.map optionalLine

/-- JavaScript `lines.join('\n')`. -/
def joinLines : List String → String
  | [] => ""
  | [s] => s
  | s :: rest => s ++ "\n" ++ joinLines rest

/-- The fixed lines written before the per-document list in `llms.txt`
(lines 42-52). -/
def llmsHeaderLines : List String :=
  ["# HonestJS",
   "",
   "> HonestJS is a small, simple, and ultrafast web framework built on Web Standards. It works on any JavaScript runtime: Cloudflare Workers, Fastly Compute, Deno, Bun, Vercel, Netlify, AWS Lambda, Lambda@Edge, and Node.js.",
   "",
   "## Docs",
   "",
   "- [Full Docs](https://honestjs.dev/llms-full.txt) Full documentation of HonestJS.",
   "- [Tiny Docs](https://honestjs.dev/llms-small.txt): Tiny documentation of HonestJS. (includes only desciption of core)",
   "",
   "## Optional",
   ""]

/-- The full content of `public/llms.txt` for a given discovery listing. -/
def llmsTxt (files : List String) : String :=
  joinLines (llmsHeaderLines ++ optionals files)

/-- The ambient state of one build: the docs tree (relative path and content
in traversal order) and the three output files under `public/`
(`none` = not present). -/
structure SiteState where
  docs : List (String × String)
  llms : Option String
  llmsFull : Option String
  llmsSmall : Option String

/-- `generateLLMDocs()` (lines 24-87) over a modelled state, with the
discovery listing passed explicitly (the spec's stable traversal order):
writes `llms.txt`, then builds and writes `llms-full.txt`, then builds and
writes `llms-small.txt`; a thrown error aborts the remaining steps and is
the rejection of the returned promise. -/
def runE (s : SiteState) (discovered : List String) : SiteState × Except String Unit :=
  let s1 : SiteState := ⟨s.docs, some (llmsTxt discovered), s.llmsFull, s.llmsSmall⟩
  match generateContent discovered s.docs fullHeader with
  | Except.error e => (s1, Except.error e)
  | Except.ok full =>
    let s2 : SiteState := ⟨s1.docs, s1.llms, some full, s1.llmsSmall⟩
    match generateContent (discovered.filter (fun p => !nodeExcluded p)) s.docs tinyHeader with
    | Except.error e => (s2, Except.error e)
    | Except.ok small => (⟨s2.docs, s2.llms, s2.llmsFull, some small⟩, Except.ok ())

/-- The discovery listing of a stable filesystem: traversal in the order the
docs tree is stored, filtered by the glob pattern. -/
def discoverOf (docs : List (String × String)) : List String :=
  (docs.map Prod.fst).filter isMd

/-- One full run of the script against a stable filesystem. -/
def runFS (s : SiteState) : SiteState := (runE s (discoverOf s.docs)).1

/-- Node process exit code at the end of the script: a promise rejection
that reaches the top level unhandled exits nonzero; the script's
`.catch(console.error)` marks every rejection handled. -/
def nodeExitCode (handled : Bool) (r : Except String Unit) : Nat :=
  match r with
  | Except.ok _ => 0
  | Except.error _ => if handled then 0 else 1

/-- Exit code of `node scripts/build-llm-docs.ts` for a given state and
discovery listing: the top level is `generateLLMDocs().catch(console.error)`
(line 101), so the rejection is always handled. -/
def buildScriptExit (s : SiteState) (discovered : List String) : Nat :=
  nodeExitCode true (runE s discovered).2

/-- Whether `closeDelim` occurs as a contiguous substring of `u`. -/
def containsClose (u : List Char) : Bool :=
  (List.range u.length).any (fun p => closeDelim.isPrefixOf (u.drop p))

/-- Modelled from the spec: the specification's notion of a leading YAML
front-matter block — "optional leading blank lines, then a line consisting
of exactly `---`, then zero or more lines, then a line consisting of exactly
`---`, then a newline".  A text starts with such a block iff, after its
leading newlines, it starts with `---`, the next character is a newline,
and `"\n---\n"` occurs afterwards (the middle lines, empty ones included,
are the newline-separated pieces before that occurrence). -/
def specBlockB (cs : List Char) : Bool :=
  let t := cs.dropWhile (fun c => c = '\n')
  ['-', '-', '-'].isPrefixOf t && (t.drop 3).take 1 = ['\n'] && containsClose (t.drop 3)

/-- The finite sequence of middle lines of a regex-recognisable front-matter
block, each preceded by its newline: `ChainOk M` says `M` is a
concatenation of segments `'\n' :: line` with `line` nonempty and free of
line terminators (the characters `.` cannot match). -/
inductive ChainOk : List Char → Prop
  | nil : ChainOk []
  | cons (line rest : List Char) : line ≠ [] → (∀ c ∈ line, isDotChar c = true) →
      ChainOk rest → ChainOk ('\n' :: line ++ rest)

/-- No occurrence of the closing delimiter starts strictly inside `M`:
the block's final `"\n---\n"` is the first possible closing, the one the
lazy quantifier selects. -/
def NoEarlyClose (M : List Char) : Prop :=
  ∀ p, p < M.length → closeDelim.isPrefixOf ((M ++ closeDelim).drop p) = false

/-- Concatenation of a list of strings (JS `+=` accumulation). -/
def concatAll : List String → String
  | [] => ""
  | s :: rest => s ++ concatAll rest

/-- The content a successful read returns (default `""`), used to state
`generateContent`'s output. -/
def readD (docs : List (String × String)) (p : String) : String :=
  match readFile docs p with
  | Except.ok c => c
  | Except.error _ => ""

theorem splitChar_ne_nil (sep : Char) (l : List Char) : splitChar sep l ≠ [] := by
  cases l with
  | nil => simp [splitChar]
  | cons c rest =>
    simp only [splitChar]
    cases h : splitChar sep rest with
    | nil => simp
    | cons a t => by_cases hc : c = sep <;> simp [hc]

theorem splitChar_of_not_mem (sep : Char) (l : List Char) (h : sep ∉ l) :
    splitChar sep l = [l] := by
  induction l with
  | nil => rfl
  | cons c rest ih =>
    have hc : c ≠ sep := fun hc => h (hc ▸ List.mem_cons_self c rest)
    have hr : sep ∉ rest := fun hr => h (List.mem_cons_of_mem c hr)
    simp only [splitChar, ih hr]
    simp [hc]

theorem splitChar_two_le (sep : Char) (l : List Char) (h : sep ∈ l) :
    2 ≤ (splitChar sep l).length := by
  induction l with
  | nil => simp at h
  | cons c rest ih =>
    simp only [splitChar]
    rcases hr : splitChar sep rest with _ | ⟨a, t⟩
    · exact absurd hr (splitChar_ne_nil sep rest)
    · by_cases hc : c = sep
      · simp [hc]
      · have hmem : sep ∈ rest := by
          rcases List.mem_cons.mp h with h1 | h1
          · exact absurd h1.symm hc
          · exact h1
        have := ih hmem
        rw [hr] at this
        simp only [List.length_cons] at this
        simp [hc, List.length_cons]
        omega

theorem lastD_cons_of_ne_nil (a : List Char) (t : List (List Char)) (h : t ≠ []) :
    lastD (a :: t) = lastD t := by
  cases t with
  | nil => exact absurd rfl h
  | cons b t' => rfl

theorem lastD_splitChar_append (sep : Char) (d n : List Char) (hn : sep ∉ n) :
    lastD (splitChar sep (d ++ sep :: n)) = n := by
  induction d with
  | nil =>
    simp only [List.nil_append, splitChar, splitChar_of_not_mem sep n hn]
    rfl
  | cons c d' ih =>
    simp only [List.cons_append, splitChar]
    rcases hr : splitChar sep (d' ++ sep :: n) with _ | ⟨a, t⟩
    · exact absurd hr (splitChar_ne_nil sep _)
    · have h2 : 2 ≤ (splitChar sep (d' ++ sep :: n)).length :=
        splitChar_two_le sep _ (by simp)
      rw [hr] at h2
      have ht : t ≠ [] := by
        intro he
        rw [he] at h2
        simp at h2
      rw [hr, lastD_cons_of_ne_nil a t ht] at ih
      show lastD (if c = sep then [] :: a :: t else (c :: a) :: t) = n
      by_cases hc : c = sep
      · rw [if_pos hc, lastD_cons_of_ne_nil [] (a :: t) (by simp),
          lastD_cons_of_ne_nil a t ht]
        exact ih
      · rw [if_neg hc, lastD_cons_of_ne_nil (c :: a) t ht]
        exact ih

theorem rfhL_of_not_mem (l : List Char) (h : '-' ∉ l) : rfhL l = l := by
  induction l with
  | nil => rfl
  | cons c rest ih =>
    have hc : c ≠ '-' := fun hc => h (hc ▸ List.mem_cons_self c rest)
    have hr : '-' ∉ rest := fun hr => h (List.mem_cons_of_mem c hr)
    simp [rfhL, hc, ih hr]

theorem rfhL_append (a b : List Char) (h : '-' ∉ a) :
    rfhL (a ++ '-' :: b) = a ++ ' ' :: b := by
  induction a with
  | nil => simp [rfhL]
  | cons c rest ih =>
    have hc : c ≠ '-' := fun hc => h (hc ▸ List.mem_cons_self c rest)
    have hr : '-' ∉ rest := fun hr => h (List.mem_cons_of_mem c hr)
    simp [rfhL, hc, ih hr]

theorem replaceFirstHyphen_split (a b : String) (h : '-' ∉ a.data) :
    replaceFirstHyphen (a ++ "-" ++ b) = a ++ " " ++ b := by
  apply String.ext
  simp only [replaceFirstHyphen, String.data_append]
  rw [List.append_assoc, List.append_assoc, List.singleton_append,
    List.singleton_append, rfhL_append a.data b.data h]

theorem replaceFirstHyphen_id (s : String) (h : '-' ∉ s.data) :
    replaceFirstHyphen s = s := by
  apply String.ext
  simp only [replaceFirstHyphen]
  exact rfhL_of_not_mem s.data h

/-- **C8.** Label derivation: `extractLabel` takes the file's base name
(the part after the last `/`) and strips its extension with `sliceExt`;
`capitalizeDelimiter` splits the result on `-`, upper-cases the first
character of each segment, and rejoins the segments with `-`.  In
particular `capitalizeDelimiter (extractLabel "getting-started.md")`
is `"Getting-Started"` (and `"dependency-injection.md"` gives
`"Dependency-Injection"`). -/
theorem deriveLabel_spec :
    (∀ (d n : List Char), '/' ∉ n →
      extractLabel (String.mk (d ++ '/' :: n)) = sliceExt (String.mk n))
    ∧ capitalizeDelimiter (extractLabel "getting-started.md") = "Getting-Started"
    ∧ capitalizeDelimiter (extractLabel "dependency-injection.md") = "Dependency-Injection" := by
  refine ⟨fun d n hn => ?_, by decide, by decide⟩
  simp only [extractLabel]
  congr 1
  congr 1
  exact lastD_splitChar_append '/' d n hn

/-- Witness for `deriveLabel_spec`: the base name of
`docs/getting-started.md` is `getting-started.md`, and the derived label of
that file is `Getting-Started`. -/
theorem deriveLabel_spec_w :
    extractLabel (String.mk ("docs".data ++ '/' :: "getting-started.md".data)) =
      sliceExt (String.mk "getting-started.md".data)
    ∧ capitalizeDelimiter (extractLabel "getting-started.md") = "Getting-Started" :=
  ⟨deriveLabel_spec.1 "docs".data "getting-started.md".data (by decide),
   deriveLabel_spec.2.1⟩

theorem splitChar_of_not_mem_sliceExt (s : String) (h : '.' ∉ s.data) :
    sliceExt s = "" := by
  simp only [sliceExt, splitChar_of_not_mem '.' s.data h]
  rfl

/-- **C10 (counterexample).** The claim asserts that for every file path
whose base name contains no `.`, `sliceExt` of the path (the index line's
link path) is the empty string; but for `v1.0/README` — base name `README`
without a dot — `sliceExt` splits the whole path on `.` and returns the
nonempty truncated string `v1`. -/
theorem sliceExt_dotted_dir_cex :
    ('.' ∉ lastD (splitChar '/' "v1.0/README".data)) ∧
    sliceExt "v1.0/README" = "v1" ∧ ("v1" : String) ≠ "" := by
  refine ⟨by decide, by decide, by decide⟩

/-- **C10 (amended).** For every file path whose base name (the part after
the last `/`) contains no `.`, extension stripping of the base name returns
the empty string rather than the base name itself, so the derived label is
empty; the index line's link path `sliceExt path` is empty when the whole
path contains no `.`, but can be a nonempty truncated string when a
directory component contains a `.` (see the counterexample). -/
theorem sliceExt_no_dot (p : String)
    (hb : '.' ∉ lastD (splitChar '/' p.data)) :
    extractLabel p = "" ∧ capitalizeDelimiter (extractLabel p) = ""
    ∧ ('.' ∉ p.data → sliceExt p = "") := by
  have h1 : extractLabel p = "" := by
    simp only [extractLabel]
    exact splitChar_of_not_mem_sliceExt _ hb
  refine ⟨h1, ?_, fun hp => splitChar_of_not_mem_sliceExt p hp⟩
  rw [h1]
  decide

/-- Witness for `sliceExt_no_dot`: a file named `README` has empty derived
label and empty link path. -/
theorem sliceExt_no_dot_w :
    extractLabel "README" = "" ∧ sliceExt "README" = "" :=
  ⟨(sliceExt_no_dot "README" (by decide)).1,
   (sliceExt_no_dot "README" (by decide)).2.2 (by decide)⟩

theorem optionalLine_eq_split (f a b : String) (ha : '-' ∉ a.data)
    (hl : capitalizeDelimiter (extractLabel f) = a ++ "-" ++ b) :
    optionalLine f =
      "- [" ++ a ++ " " ++ b ++ "](https://honestjs.dev/docs/" ++ sliceExt f ++ ")" := by
  simp only [optionalLine, hl, replaceFirstHyphen_split a b ha]
  apply String.ext
  simp [String.data_append, List.append_assoc]

theorem optionalLine_eq_nohyphen (f : String)
    (ha : '-' ∉ (capitalizeDelimiter (extractLabel f)).data) :
    optionalLine f =
      "- [" ++ capitalizeDelimiter (extractLabel f) ++
        "](https://honestjs.dev/docs/" ++ sliceExt f ++ ")" := by
  simp only [optionalLine, replaceFirstHyphen_id _ ha]

theorem optionals_getElem (files : List String) (i : Nat) (f : String)
    (hf : files[i]? = some f) :
    (optionals files)[i]? = some (optionalLine f) := by
  simp only [optionals, List.getElem?_map, hf]
  rfl

/-- **C5.** Every discovered document contributes exactly one list line to
`llms.txt`, in discovery order (`optionals` maps discovery order
one-to-one onto lines and `llmsTxt` appends them after the fixed header);
the `i`-th line is `- [<label>](https://honestjs.dev/docs/<path without
extension>)` where the label is the derived label of the file's base name
with only its first hyphen replaced by a space and every later hyphen left
unchanged. -/
theorem index_lines_spec (files : List String) :
    (optionals files).length = files.length ∧
    (∀ (i : Nat) (f a b : String), files[i]? = some f → '-' ∉ a.data →
      capitalizeDelimiter (extractLabel f) = a ++ "-" ++ b →
      (optionals files)[i]? =
        some ("- [" ++ a ++ " " ++ b ++ "](https://honestjs.dev/docs/" ++
          sliceExt f ++ ")")) ∧
    (∀ (i : Nat) (f : String), files[i]? = some f →
      '-' ∉ (capitalizeDelimiter (extractLabel f)).data →
      (optionals files)[i]? =
        some ("- [" ++ capitalizeDelimiter (extractLabel f) ++
          "](https://honestjs.dev/docs/" ++ sliceExt f ++ ")")) := by
  refine ⟨by simp [optionals], fun i f a b hf ha hl => ?_, fun i f hf ha => ?_⟩
  · rw [optionals_getElem files i f hf, optionalLine_eq_split f a b ha hl]
  · rw [optionals_getElem files i f hf, optionalLine_eq_nohyphen f ha]

/-- Witness for `index_lines_spec`: with the single discovered file
`getting-started.md`, the index list consists of exactly the line
`- [Getting Started](https://honestjs.dev/docs/getting-started)`. -/
theorem index_lines_spec_w :
    (optionals ["getting-started.md"]).length = 1 ∧
    (optionals ["getting-started.md"])[0]? =
      some ("- [" ++ "Getting" ++ " " ++ "Started" ++ "](https://honestjs.dev/docs/" ++
        sliceExt "getting-started.md" ++ ")") :=
  ⟨(index_lines_spec ["getting-started.md"]).1,
   (index_lines_spec ["getting-started.md"]).2.1 0 "getting-started.md" "Getting" "Started"
     (by decide) (by decide) (by decide)⟩

theorem joinSegs_pair_slash (a b : List Char) (t : List (List Char)) :
    '/' ∈ joinSegs (a :: b :: t) := by
  simp only [joinSegs, joinWith]
  exact List.mem_append.mpr (Or.inr (List.mem_cons_self _ _))

theorem tinyExclude_no_slash : ∀ s ∈ tinyExclude, '/' ∉ s.data := by decide

theorem nodeExcluded_iff (p : String) :
    nodeExcluded p = true ↔
      String.mk ((splitChar '/' p.data).headD []) ∈ tinyExclude := by
  rcases hs : splitChar '/' p.data with _ | ⟨h0, t0⟩
  · exact absurd hs (splitChar_ne_nil '/' p.data)
  constructor
  · intro hx
    simp only [nodeExcluded, List.any_eq_true, List.mem_range, hs] at hx
    obtain ⟨k, hk, hc⟩ := hx
    have hmem := List.contains_iff_exists_mem_beq.mp hc
    obtain ⟨x, hx1, hx2⟩ := hmem
    have hmem : String.mk (joinSegs ((h0 :: t0).take (k + 1))) ∈ tinyExclude := by
      have := eq_of_beq hx2
      rw [this]; exact hx1
    cases k with
    | zero =>
      simpa [joinSegs, joinWith, List.headD] using hmem
    | succ k' =>
      exfalso
      simp only [List.length_cons] at hk
      have hlen : 2 ≤ ((h0 :: t0).take (k' + 2)).length := by
        simp only [List.length_take, List.length_cons]
        omega
      rcases htake : (h0 :: t0).take (k' + 2) with _ | ⟨a, _ | ⟨b, t'⟩⟩
      · rw [htake] at hlen; simp at hlen
      · rw [htake] at hlen; simp at hlen
      · rw [htake] at hmem
        exact tinyExclude_no_slash _ hmem (joinSegs_pair_slash a b t')
  · intro hx
    simp only [nodeExcluded, List.any_eq_true, List.mem_range, hs]
    refine ⟨0, by simp, ?_⟩
    apply List.contains_iff_exists_mem_beq.mpr
    refine ⟨String.mk (joinSegs ((h0 :: t0).take 1)), ?_, by simp⟩
    simpa [joinSegs, joinWith, List.headD] using hx

/-- **C2 (counterexample).** The claim says a document is excluded from the
tiny bundle exactly when *some* path segment equals an excluded name; but
the `exclude` callback compares whole cwd-relative paths, so
`a/concepts/b.md` — whose second segment is the excluded name `concepts` —
is *not* excluded (none of `a`, `a/concepts`, `a/concepts/b.md` is in
`tinyExclude`). -/
theorem tinyExclusion_segment_cex :
    ("concepts" ∈ (splitChar '/' "a/concepts/b.md".data).map String.mk ∧
      "concepts" ∈ tinyExclude) ∧
    discoverTiny ["a/concepts/b.md"] = ["a/concepts/b.md"] := by
  refine ⟨⟨by decide, by decide⟩, by decide⟩

/-- **C2 (amended).** The tiny bundle's document listing is always a subset
of the full bundle's listing, and a discovered document is excluded from
the tiny listing exactly when its *first* path segment equals one of the
fixed names `concepts`, `helpers`, `middleware` (the exclusion callback
receives whole relative paths, and the excluded names contain no `/`, so
only the top-level component can match); in particular `concepts/routing.md`
appears in the full listing and not in the tiny one. -/
theorem tinyExclusion_firstSegment (tree : List String) (p : String) :
    (∀ q, q ∈ discoverTiny tree → q ∈ discoverFull tree) ∧
    (p ∈ discoverFull tree →
      (p ∈ discoverTiny tree ↔
        String.mk ((splitChar '/' p.data).headD []) ∉ tinyExclude)) := by
  constructor
  · intro q hq
    rw [discoverTiny, List.mem_filter] at hq
    rw [discoverFull, List.mem_filter]
    exact ⟨hq.1, (Bool.and_eq_true _ _).mp hq.2 |>.1⟩
  · intro hp
    rw [discoverFull, List.mem_filter] at hp
    rw [discoverTiny, List.mem_filter]
    constructor
    · rintro ⟨-, hq⟩ hmem
      have h2 := ((Bool.and_eq_true _ _).mp hq).2
      rw [Bool.not_eq_true'] at h2
      exact absurd ((nodeExcluded_iff p).mpr hmem) (by simp [h2])
    · intro hmem
      refine ⟨hp.1, (Bool.and_eq_true _ _).mpr ⟨hp.2, ?_⟩⟩
      rw [Bool.not_eq_true']
      cases hx : nodeExcluded p
      · rfl
      · exact absurd ((nodeExcluded_iff p).mp hx) hmem

/-- Witness for `tinyExclusion_firstSegment`: over a tree with
`concepts/routing.md` and `index.md`, the former is discovered for the full
bundle but not for the tiny bundle. -/
theorem tinyExclusion_firstSegment_w :
    "concepts/routing.md" ∈ discoverFull ["concepts/routing.md", "index.md"] ∧
    "concepts/routing.md" ∉ discoverTiny ["concepts/routing.md", "index.md"] := by
  have h :=
    (tinyExclusion_firstSegment ["concepts/routing.md", "index.md"]
      "concepts/routing.md").2 (by decide)
  exact ⟨by decide, fun hm => (h.mp hm) (by decide)⟩

theorem close_isPrefixOf_append (u r : List Char) (h : closeDelim.length ≤ u.length) :
    closeDelim.isPrefixOf (u ++ r) = closeDelim.isPrefixOf u := by
  rw [Bool.eq_iff_iff, List.isPrefixOf_iff_prefix, List.isPrefixOf_iff_prefix,
    List.prefix_iff_eq_take, List.prefix_iff_eq_take, List.take_append_of_le_length h]

theorem chainOk_head_shape {M : List Char} (h : ChainOk M) :
    M = [] ∨ ∃ t, M = '\n' :: t := by
  cases h with
  | nil => exact Or.inl rfl
  | cons line rest h1 h2 h3 => exact Or.inr ⟨_, rfl⟩

theorem dropWhile_dotrun (line T : List Char) (hl : ∀ c ∈ line, isDotChar c = true)
    (hT : T = [] ∨ ∃ t, T = '\n' :: t) :
    (line ++ T).dropWhile isDotChar = T := by
  induction line with
  | nil =>
    rcases hT with h | ⟨t, h⟩
    · simp [h]
    · subst h
      simp [List.dropWhile_cons, show isDotChar '\n' = false from rfl]
  | cons c cl ih =>
    have hc : isDotChar c = true := hl c (List.mem_cons_self c cl)
    simp only [List.cons_append, List.dropWhile_cons, hc, if_true]
    exact ih (fun x hx => hl x (List.mem_cons_of_mem c hx))

theorem noEarlyClose_tail (line rest : List Char)
    (h : NoEarlyClose ('\n' :: line ++ rest)) : NoEarlyClose rest := by
  intro p hp
  have hlt : line.length + p + 1 < ('\n' :: line ++ rest).length := by
    simp only [List.length_cons, List.length_append]
    omega
  have key : (('\n' :: line ++ rest) ++ closeDelim).drop (line.length + p + 1) =
      (rest ++ closeDelim).drop p := by
    simp only [List.cons_append, List.drop_succ_cons, List.append_assoc, List.drop_append]
  have := h (line.length + p + 1) hlt
  rwa [key] at this

theorem fmLoopF_wellformed (M : List Char) (hM : ChainOk M) :
    ∀ (r : List Char) (fuel : Nat), NoEarlyClose M → M.length + 1 ≤ fuel →
      fmLoopF fuel (M ++ closeDelim ++ r) = some r := by
  induction hM with
  | nil =>
    intro r fuel _ hf
    cases fuel with
    | zero => omega
    | succ f =>
      have hpre : closeDelim.isPrefixOf (([] : List Char) ++ closeDelim ++ r) = true := by
        rw [List.nil_append]
        exact List.isPrefixOf_iff_prefix.mpr (List.prefix_append closeDelim r)
      simp only [fmLoopF, hpre, if_true]
      simp [closeDelim]
  | cons line rest hne hdot hco ih =>
    intro r fuel hE hf
    cases fuel with
    | zero =>
      exfalso
      simp only [List.length_cons, List.length_append] at hf
      omega
    | succ f =>
      rcases line with _ | ⟨c, line'⟩
      · exact absurd rfl hne
      have hclose :
          closeDelim.isPrefixOf ((('\n' :: (c :: line') ++ rest) ++ closeDelim ++ r)) = false := by
        have h0 := hE 0 (by simp)
        have hlen : closeDelim.length ≤ (('\n' :: (c :: line') ++ rest) ++ closeDelim).length := by
          simp [closeDelim]
          omega
        have hext := close_isPrefixOf_append (('\n' :: (c :: line') ++ rest) ++ closeDelim) r hlen
        rw [hext]
        simpa using h0
      have hcs : (('\n' :: (c :: line') ++ rest) ++ closeDelim ++ r) =
          '\n' :: c :: (line' ++ (rest ++ closeDelim ++ r)) := by
        simp [List.append_assoc]
      rw [hcs] at hclose
      rw [hcs]
      simp only [fmLoopF, hclose, Bool.false_eq_true, if_false,
        hdot c (List.mem_cons_self c line'), if_true, reduceIte]
      have hdw : (c :: (line' ++ (rest ++ closeDelim ++ r))).dropWhile isDotChar =
          rest ++ closeDelim ++ r := by
        have : c :: (line' ++ (rest ++ closeDelim ++ r)) =
            (c :: line') ++ (rest ++ closeDelim ++ r) := rfl
        rw [this]
        refine dropWhile_dotrun (c :: line') (rest ++ closeDelim ++ r) hdot ?_
        rcases chainOk_head_shape hco with h | ⟨t, h⟩
        · subst h
          exact Or.inr ⟨'-' :: '-' :: '-' :: '\n' :: r, by simp [closeDelim]⟩
        · subst h
          exact Or.inr ⟨t ++ closeDelim ++ r, by simp [List.append_assoc]⟩
      rw [hdw]
      refine ih r f (noEarlyClose_tail (c :: line') rest hE) ?_
      simp only [List.length_cons, List.length_append] at hf
      omega

theorem dropWhile_nl (nl X : List Char) (hnl : ∀ c ∈ nl, c = '\n') :
    (nl ++ '-' :: X).dropWhile (fun c => c = '\n') = '-' :: X := by
  induction nl with
  | nil => simp [List.dropWhile_cons]
  | cons c t ih =>
    have hc : c = '\n' := hnl c (List.mem_cons_self c t)
    simp only [List.cons_append, List.dropWhile_cons, hc]
    simpa using ih (fun x hx => hnl x (List.mem_cons_of_mem c hx))

/-- **C1 (amended).** For every input that begins, after optional leading
blank lines, with a line consisting of exactly `---`, then zero or more
*nonempty* lines (free of line-terminator characters), then a line
consisting of exactly `---` followed by a newline — the closing delimiter
being the earliest possible one (`NoEarlyClose`), as the lazy quantifier
selects — the front-matter strip returns the input with exactly that
leading block removed and the remainder unchanged.  A block containing an
empty middle line is *not* recognised (see the counterexample). -/
theorem stripFrontMatter_wellformed (s : String) (nl M r : List Char)
    (hs : s.data = nl ++ '-' :: '-' :: '-' :: (M ++ closeDelim ++ r))
    (hnl : ∀ c ∈ nl, c = '\n') (hM : ChainOk M) (hE : NoEarlyClose M) :
    stripFrontMatter s = String.mk r := by
  have hdp : s.data.dropWhile (fun c => c = '\n') = '-' :: '-' :: '-' :: (M ++ closeDelim ++ r) := by
    rw [hs]
    exact dropWhile_nl nl ('-' :: '-' :: (M ++ closeDelim ++ r)) hnl
  have hmatch : fmMatch s.data = some r := by
    unfold fmMatch
    rw [hdp]
    exact fmLoopF_wellformed M hM r ((M ++ closeDelim ++ r).length + 1) hE
      (by simp [List.length_append])
  unfold stripFrontMatter
  rw [hmatch]

/-- **C1 (counterexample).** The input `"---\n\n---\nx"` begins (with no
leading blank lines) with the line `---`, one middle line that is empty,
and the closing line `---` followed by a newline, so the claim demands that
the strip return `"x"`; but the regex requires middle lines to be nonempty
(`.+`), the pattern fails, and the strip returns the input unchanged. -/
theorem stripFrontMatter_blankline_cex :
    ("---\n\n---\nx" : String) = "---\n" ++ "\n" ++ "---\n" ++ "x" ∧
    stripFrontMatter "---\n\n---\nx" = "---\n\n---\nx" ∧
    ("---\n\n---\nx" : String) ≠ "x" := ⟨by decide, by decide, by decide⟩

theorem chainOk_single (line : List Char) (h1 : line ≠ [])
    (h2 : ∀ c ∈ line, isDotChar c = true) : ChainOk ('\n' :: line) := by
  have h := ChainOk.cons line [] h1 h2 ChainOk.nil
  simpa using h

/-- Witness for `stripFrontMatter_wellformed`: the document
`"\n---\ntitle: hi\n---\nbody"` (one leading blank line, one middle line
`title: hi`) is stripped to `"body"`. -/
theorem stripFrontMatter_wellformed_w :
    stripFrontMatter "\n---\ntitle: hi\n---\nbody" = String.mk "body".data :=
  stripFrontMatter_wellformed "\n---\ntitle: hi\n---\nbody" ['\n']
    ('\n' :: "title: hi".data) "body".data (by decide) (by decide)
    (chainOk_single "title: hi".data (by decide) (by decide))
    (by unfold NoEarlyClose; decide)

theorem containsClose_of_prefix (u : List Char) (h : closeDelim.isPrefixOf u = true) :
    containsClose u = true := by
  have hlen : 0 < u.length := by
    rcases List.isPrefixOf_iff_prefix.mp h with ⟨t, ht⟩
    rw [← ht]
    simp [closeDelim]
  simp only [containsClose, List.any_eq_true, List.mem_range]
  exact ⟨0, hlen, by simpa using h⟩

theorem containsClose_of_suffix (u v : List Char) (hsuf : v <:+ u)
    (h : containsClose v = true) : containsClose u = true := by
  obtain ⟨w, hw⟩ := hsuf
  simp only [containsClose, List.any_eq_true, List.mem_range] at h ⊢
  obtain ⟨p, hp, hpre⟩ := h
  refine ⟨w.length + p, ?_, ?_⟩
  · rw [← hw, List.length_append]
    omega
  · rw [← hw]
    simpa [List.drop_append] using hpre

theorem fmLoopF_some_shape (fuel : Nat) (u r : List Char)
    (h : fmLoopF fuel u = some r) :
    (∃ t, u = '\n' :: t) ∧ containsClose u = true := by
  induction fuel generalizing u with
  | zero => simp [fmLoopF] at h
  | succ f ih =>
    by_cases hp : closeDelim.isPrefixOf u = true
    · constructor
      · rcases List.isPrefixOf_iff_prefix.mp hp with ⟨t, ht⟩
        exact ⟨'-' :: '-' :: '-' :: '\n' :: t, by rw [← ht]; rfl⟩
      · exact containsClose_of_prefix u hp
    · rcases u with _ | ⟨c0, _ | ⟨c1, u2⟩⟩
      · simp [fmLoopF, hp] at h
      · simp [fmLoopF, hp] at h
      · rw [fmLoopF, if_neg hp] at h
        by_cases hc0 : c0 = '\n'
        · rw [if_pos hc0] at h
          by_cases hd : isDotChar c1 = true
          · rw [if_pos hd] at h
            obtain ⟨-, hcc⟩ := ih ((c1 :: u2).dropWhile isDotChar) h
            subst hc0
            refine ⟨⟨c1 :: u2, rfl⟩, ?_⟩
            have hsuf : (c1 :: u2).dropWhile isDotChar <:+ '\n' :: c1 :: u2 :=
              List.IsSuffix.trans (List.dropWhile_suffix isDotChar) ⟨['\n'], rfl⟩
            exact containsClose_of_suffix _ _ hsuf hcc
          · rw [if_neg hd] at h
            exact absurd h (by simp)
        · rw [if_neg hc0] at h
          exact absurd h (by simp)

theorem fmMatch_some_specBlockB (cs r : List Char) (h : fmMatch cs = some r) :
    specBlockB cs = true := by
  unfold fmMatch at h
  split at h
  · rename_i rest heq
    obtain ⟨⟨t, ht⟩, hcc⟩ := fmLoopF_some_shape (rest.length + 1) rest r h
    simp only [specBlockB]
    rw [ht] at hcc
    rw [heq, ht]
    simp [hcc, List.isPrefixOf]
  · exact absurd h (by simp)

theorem strip_eq_self_of_no_block (s : String) (h : specBlockB s.data = false) :
    stripFrontMatter s = s := by
  unfold stripFrontMatter
  cases hm : fmMatch s.data with
  | none => rfl
  | some r => exact absurd (fmMatch_some_specBlockB s.data r hm) (by simp [h])

/-- **C6.** For every input text whose start is not a complete front-matter
block in the sense of the specification (`specBlockB`: optional leading
blank lines, a line `---`, zero or more lines — empty ones allowed — and a
closing line `---` with its newline) — in particular every text with no
leading `---` line, and every text whose leading `---` has no closing
`---` line — the front-matter strip returns the text unchanged; it is a
total function, so no error is raised (a silent no-op). -/
theorem stripFrontMatter_no_block_id (s : String) (h : specBlockB s.data = false) :
    stripFrontMatter s = s :=
  strip_eq_self_of_no_block s h

/-- Witness for `stripFrontMatter_no_block_id`: a text with no leading
`---` line, and a text whose leading `---` block never closes, are both
returned unchanged. -/
theorem stripFrontMatter_no_block_id_w :
    stripFrontMatter "Hello\n---\n---\n" = "Hello\n---\n---\n" ∧
    stripFrontMatter "---\ntitle: x\nno closing" = "---\ntitle: x\nno closing" :=
  ⟨stripFrontMatter_no_block_id "Hello\n---\n---\n" (by decide),
   stripFrontMatter_no_block_id "---\ntitle: x\nno closing" (by decide)⟩

/-- **C7 (counterexample).** The input `"---\na\n---\n---\nb\n---\nx"`
begins with the well-formed front-matter block `---\na\n---\n`, yet
stripping once leaves `"---\nb\n---\nx"` — which itself begins with a
block — so the second application strips again: the strip is not
idempotent on all inputs with a well-formed leading block. -/
theorem stripFrontMatter_idem_cex :
    specBlockB ("---\na\n---\n---\nb\n---\nx" : String).data = true ∧
    stripFrontMatter "---\na\n---\n---\nb\n---\nx" = "---\nb\n---\nx" ∧
    stripFrontMatter (stripFrontMatter "---\na\n---\n---\nb\n---\nx") = "x" ∧
    ("x" : String) ≠ "---\nb\n---\nx" :=
  ⟨by decide, by decide, by decide, by decide⟩

/-- **C7 (amended).** Applying the front-matter strip twice equals applying
it once for every input whose once-stripped result does not itself begin
with a front-matter block; when the stripped remainder begins with another
block (as in the counterexample) the second application removes that block
too. -/
theorem stripFrontMatter_idem (s : String)
    (h : specBlockB (stripFrontMatter s).data = false) :
    stripFrontMatter (stripFrontMatter s) = stripFrontMatter s :=
  strip_eq_self_of_no_block (stripFrontMatter s) h

/-- Witness for `stripFrontMatter_idem`: for the document
`"---\ntitle: a\n---\nhello"` the strip is idempotent. -/
theorem stripFrontMatter_idem_w :
    stripFrontMatter (stripFrontMatter "---\ntitle: a\n---\nhello") =
      stripFrontMatter "---\ntitle: a\n---\nhello" :=
  stripFrontMatter_idem "---\ntitle: a\n---\nhello" (by decide)

theorem gcGo_ok (docs : List (String × String)) :
    ∀ (files : List String) (acc : String),
      (∀ f ∈ files, readOk docs f = true) →
      gcGo docs files acc =
        Except.ok (acc ++
          concatAll (files.map (fun f => stripFrontMatter (readD docs f) ++ "\n\n"))) := by
  intro files
  induction files with
  | nil =>
    intro acc _
    simp [gcGo, concatAll]
  | cons f fs ih =>
    intro acc hall
    have hf := hall f (List.mem_cons_self f fs)
    have hok : readFile docs f = Except.ok (readD docs f) := by
      cases hr : readFile docs f with
      | ok c => simp [readD, hr]
      | error e =>
        rw [readOk, hr] at hf
        simp at hf
    simp only [gcGo, hok]
    rw [ih (acc ++ stripFrontMatter (readD docs f) ++ "\n\n")
      (fun x hx => hall x (List.mem_cons_of_mem f hx))]
    simp [concatAll, String.append_assoc]

/-- **C4.** For every header string, every docs directory, and every finite
sequence of readable document paths, `generateContent` returns exactly the
header, immediately followed by the line `# Start of HonestJS
documentation` (with its newline), then for each path in discovery order
the front-matter-stripped content of that file followed by two newlines.
The function only returns the built string; the disk writes happen in the
caller `runE`. -/
theorem generateContent_spec (header : String) (files : List String)
    (docs : List (String × String))
    (h : ∀ f ∈ files, readOk docs f = true) :
    generateContent files docs header =
      Except.ok (header ++ startLine ++
        concatAll (files.map (fun f => stripFrontMatter (readD docs f) ++ "\n\n"))) := by
  unfold generateContent
  rw [gcGo_ok docs files (header ++ startLine) h]

/-- A one-document docs directory used to instantiate the pipeline
theorems. -/
def sampleDocs : List (String × String) := [("a.md", "---\nt: 1\n---\nhi")]

/-- Witness for `generateContent_spec`: one readable document, arbitrary
header `"H:"`. -/
theorem generateContent_spec_w :
    generateContent ["a.md"] sampleDocs "H:" =
      Except.ok ("H:" ++ startLine ++
        concatAll (["a.md"].map (fun f => stripFrontMatter (readD sampleDocs f) ++ "\n\n"))) :=
  generateContent_spec "H:" ["a.md"] sampleDocs (by decide)

/-- A state whose docs tree is empty: any nonempty discovery listing makes
the read step throw. -/
def errState : SiteState := ⟨[], none, none, none⟩

/-- **C3 (counterexample).** A run in which reading throws (`ghost.md` was
discovered but does not exist — the spec's FilesystemError) aborts with the
error, yet the process exit code is `0`, not nonzero: the top-level
`.catch(console.error)` handles the rejection, so Node terminates
normally. -/
theorem buildScript_exit_cex :
    (runE errState ["ghost.md"]).2 = Except.error ("ENOENT: " ++ "ghost.md") ∧
    buildScriptExit errState ["ghost.md"] = 0 := ⟨rfl, rfl⟩

/-- **C3 (amended).** For every run in which discovery, reading, or writing
throws, the run aborts (steps after the failing one are skipped — in
particular `llms-small.txt` is never written) and the error is printed by
the `catch` handler, but the process exits `0` regardless, because the
rejection is handled; a run with no error also exits `0`. -/
theorem buildScript_exit_zero (s : SiteState) (d : List String) :
    buildScriptExit s d = 0 ∧
    (s.llmsSmall = none → ∀ e, (runE s d).2 = Except.error e →
      (runE s d).1.llmsSmall = none) := by
  constructor
  · unfold buildScriptExit nodeExitCode
    cases (runE s d).2 <;> simp
  · intro hnone e herr
    simp only [runE] at herr ⊢
    cases h1 : generateContent d s.docs fullHeader with
    | error e1 => simp [h1, hnone]
    | ok full =>
      cases h2 : generateContent (d.filter (fun p => !nodeExcluded p)) s.docs tinyHeader with
      | error e2 => simp [h1, h2, hnone]
      | ok small =>
        rw [h1, h2] at herr
        simp at herr

/-- Witness for `buildScript_exit_zero`: the failing run of the
counterexample state exits `0` and never writes the tiny bundle. -/
theorem buildScript_exit_zero_w :
    buildScriptExit errState ["ghost.md"] = 0 ∧
    (runE errState ["ghost.md"]).1.llmsSmall = none :=
  ⟨(buildScript_exit_zero errState ["ghost.md"]).1,
   (buildScript_exit_zero errState ["ghost.md"]).2 rfl ("ENOENT: " ++ "ghost.md") rfl⟩

/-- The content of `llms-full.txt` as a function of the docs tree and the
discovery listing alone. -/
def fullOut (docs : List (String × String)) (d : List String) : String :=
  fullHeader ++ startLine ++
    concatAll (d.map (fun f => stripFrontMatter (readD docs f) ++ "\n\n"))

/-- The content of `llms-small.txt` as a function of the docs tree and the
discovery listing alone. -/
def tinyOut (docs : List (String × String)) (d : List String) : String :=
  tinyHeader ++ startLine ++
    concatAll ((d.filter (fun p => !nodeExcluded p)).map
      (fun f => stripFrontMatter (readD docs f) ++ "\n\n"))

theorem readOk_of_mem_discoverOf (docs : List (String × String)) (f : String)
    (hf : f ∈ discoverOf docs) : readOk docs f = true := by
  unfold discoverOf at hf
  have hmem : f ∈ docs.map Prod.fst := List.mem_of_mem_filter hf
  obtain ⟨pair, hpair, hfst⟩ := List.mem_map.mp hmem
  unfold readOk readFile
  cases hfind : docs.find? (fun e => e.1 = f) with
  | some e => simp
  | none =>
    exfalso
    have := List.find?_eq_none.mp hfind pair hpair
    simp [hfst] at this

theorem runE_ok_outputs (s : SiteState) (d : List String)
    (h : ∀ f ∈ d, readOk s.docs f = true) :
    runE s d = (⟨s.docs, some (llmsTxt d), some (fullOut s.docs d),
      some (tinyOut s.docs d)⟩, Except.ok ()) := by
  have hfull : generateContent d s.docs fullHeader = Except.ok (fullOut s.docs d) := by
    unfold generateContent fullOut
    rw [gcGo_ok s.docs d (fullHeader ++ startLine) h]
  have htiny : generateContent (d.filter (fun p => !nodeExcluded p)) s.docs tinyHeader =
      Except.ok (tinyOut s.docs d) := by
    unfold generateContent tinyOut
    rw [gcGo_ok s.docs _ (tinyHeader ++ startLine)
      (fun f hf => h f (List.mem_of_mem_filter hf))]
  simp only [runE, hfull, htiny]

/-- **C9.** Determinism and idempotence of the pipeline: a run never
modifies the docs tree; two runs over the same document tree (hence the
same stable discovery order, which the model derives from the tree) produce
identical contents for all three output files; and running the pipeline a
second time after a first run reproduces the first run's outputs
byte-for-byte. -/
theorem pipeline_deterministic (s s' : SiteState) (h : s.docs = s'.docs) :
    (runFS s).docs = s.docs ∧
    ((runFS s).llms = (runFS s').llms ∧ (runFS s).llmsFull = (runFS s').llmsFull ∧
      (runFS s).llmsSmall = (runFS s').llmsSmall) ∧
    ((runFS (runFS s)).llms = (runFS s).llms ∧
      (runFS (runFS s)).llmsFull = (runFS s).llmsFull ∧
      (runFS (runFS s)).llmsSmall = (runFS s).llmsSmall) := by
  have key : ∀ t : SiteState, runFS t =
      ⟨t.docs, some (llmsTxt (discoverOf t.docs)), some (fullOut t.docs (discoverOf t.docs)),
        some (tinyOut t.docs (discoverOf t.docs))⟩ := by
    intro t
    unfold runFS
    rw [runE_ok_outputs t (discoverOf t.docs)
      (fun f hf => readOk_of_mem_discoverOf t.docs f hf)]
  rw [key s, key s', key (⟨s.docs, some (llmsTxt (discoverOf s.docs)),
    some (fullOut s.docs (discoverOf s.docs)), some (tinyOut s.docs (discoverOf s.docs))⟩ : SiteState)]
  rw [h]
  exact ⟨rfl, ⟨rfl, rfl, rfl⟩, ⟨rfl, rfl, rfl⟩⟩

/-- A state with one document and no outputs yet. -/
def st0 : SiteState := ⟨[("a.md", "hello")], none, none, none⟩

/-- The same docs tree as `st0` but with a stale `llms.txt` present. -/
def st1 : SiteState := ⟨[("a.md", "hello")], some "stale", none, none⟩

/-- Witness for `pipeline_deterministic`: two states with the same docs
tree but different pre-existing outputs produce the same outputs, and a
second run changes nothing. -/
theorem pipeline_deterministic_w :
    (runFS st0).docs = st0.docs ∧
    ((runFS st0).llms = (runFS st1).llms ∧ (runFS st0).llmsFull = (runFS st1).llmsFull ∧
      (runFS st0).llmsSmall = (runFS st1).llmsSmall) ∧
    ((runFS (runFS st0)).llms = (runFS st0).llms ∧
      (runFS (runFS st0)).llmsFull = (runFS st0).llmsFull ∧
      (runFS (runFS st0)).llmsSmall = (runFS st0).llmsSmall) :=
  pipeline_deterministic st0 st1 rfl
